import Mathlib

/-!
Verification development for a Fellegi–Sunter record-linkage program
(src/record_linkage.py).  The core pipeline is embedded shallowly:

* `gen_prob_tuple`   — signature generation (per-field similarity categories),
* `compute_probabilities` — empirical frequency distribution of signatures,
* `ordered_probabilities` — union of the two distributions, sorted by
  likelihood ratio (the sort itself lives in the absent `util` module and is
  modelled from the spec),
* `put_labels`       — the double-ended greedy sweep assigning
  "match" / "unmatch" / "possible match" labels.

Python dicts are modelled as insertion-ordered association lists, Python
floats as exact rationals, and raised exceptions as `Except` errors.
-/

/-- Similarity category produced by thresholding a string-similarity score
(the codomain of `util.get_jw_category`, e.g. low / medium / high). -/
inductive Cat
  | low
  | medium
  | high
deriving DecidableEq

/-- A probability tuple (signature): one category per compared field. -/
abbrev Sig := List Cat

/-- The decision labels, mirroring the strings
"match", "unmatch" and "possible match". -/
inductive Label
  | lmatch
  | lunmatch
  | lpossible
deriving DecidableEq

/-- Error kinds the embedded code can raise: `KeyError` from a pandas `.loc`
lookup of an absent key, `IndexError` from indexing past the end of a row. -/
inductive PyErr
  | keyError
  | indexError
deriving DecidableEq

/-- Lookup in a Python dict modelled as an association list
(`d.get(k)` / `d[k]`); the first binding for a key wins. -/
def dget {α β : Type} [DecidableEq α] : List (α × β) → α → Option β
  | [], _ => none
  | p :: d, k => if p.1 = k then some p.2 else dget d k

/-- Python dict assignment `d[k] = v`: replace the binding in place when the
key is present, otherwise append a new binding at the end. -/
def dset {α β : Type} [DecidableEq α] : List (α × β) → α → β → List (α × β)
  | [], k, v => [(k, v)]
  | p :: d, k, v => if p.1 = k then (k, v) :: d else p :: dset d k v

/-- The loop of `gen_prob_tuple` (lines 143–145):
`for i in range(len(z)):` compare `z[i]` with `f[i]`.  When the second record
has fewer fields than the first, `f[i]` raises `IndexError`; when it has at
least as many, the extra fields of `f` are silently ignored.  The per-field
categorization `cat` stands for
`util.get_jw_category(jellyfish.jaro_winkler_similarity(·, ·))`
(an external total scoring/thresholding collaborator). -/
def gptLoop (cat : String → String → Cat) : List String → List String → Except PyErr Sig
  | [], _ => Except.ok []
  | _ :: _, [] => Except.error PyErr.indexError
  | a :: z, b :: f =>
    match gptLoop cat z f with
    | Except.error e => Except.error e
    | Except.ok tpl => Except.ok (cat a b :: tpl)

/-- Embedding of `gen_prob_tuple` (lines 126–146): look up both records by key
(`.loc` raises `KeyError` when absent), then categorize field-by-field. -/
def gen_prob_tuple (cat : String → String → Cat) (z_i f_i : ℕ)
    (zagat fodors : List (ℕ × List String)) : Except PyErr Sig :=
  match dget zagat z_i with
  | none => Except.error PyErr.keyError
  | some z =>
    match dget fodors f_i with
    | none => Except.error PyErr.keyError
    | some f => gptLoop cat z f

/-- Line 71 of the source: `probs[tpl] = probs.get(tpl, 0) + w`. -/
def dincr (d : List (Sig × ℚ)) (k : Sig) (w : ℚ) : List (Sig × ℚ) :=
  dset d k ((dget d k).getD 0 + w)

/-- The loop of `compute_probabilities` (lines 67–71), with the per-row weight
`w = 1 / len(df)` accumulated into the signature's bucket. -/
def cpLoop (cat : String → String → Cat) (zagat fodors : List (ℕ × List String)) (w : ℚ) :
    List (ℕ × ℕ) → List (Sig × ℚ) → Except PyErr (List (Sig × ℚ))
  | [], probs => Except.ok probs
  | r :: rest, probs =>
    match gen_prob_tuple cat r.1 r.2 zagat fodors with
    | Except.error e => Except.error e
    | Except.ok tpl => cpLoop cat zagat fodors w rest (dincr probs tpl w)

/-- Embedding of `compute_probabilities` (lines 53–72).  The division
`1 / len(df)` occurs only inside the loop body, so an empty `df` runs zero
iterations and returns the empty dict (no division is ever executed). -/
def compute_probabilities (cat : String → String → Cat) (df : List (ℕ × ℕ))
    (zagat fodors : List (ℕ × List String)) : Except PyErr (List (Sig × ℚ)) :=
  cpLoop cat zagat fodors (1 / (df.length : ℚ)) df []

/-- Numeric index of a category, for the deterministic tie-break order. -/
def catIdx : Cat → ℕ
  | Cat.low => 0
  | Cat.medium => 1
  | Cat.high => 2

/-- Lexicographic strict order on signatures (deterministic tie-break). -/
def sigLt : Sig → Sig → Bool
  | [], [] => false
  | [], _ :: _ => true
  | _ :: _, [] => false
  | a :: s, b :: t =>
    if catIdx a < catIdx b then true
    else if catIdx a = catIdx b then sigLt s t else false

/-- Modelled from the spec: the comparator underlying `util.sort_prob_tuples`
(the `util` module is not under src/).  Per §4.4 a tuple comes earlier when its
likelihood ratio match-mass / unmatch-mass is larger, a zero unmatch-mass
counts as an infinite ratio (ranks at the top), and ties are broken
deterministically by signature value. -/
def opBefore (a b : Sig × ℚ × ℚ) : Bool :=
  if a.2.2 = 0 then
    (if b.2.2 = 0 then (sigLt a.1 b.1 || decide (a.1 = b.1)) else true)
  else if b.2.2 = 0 then false
  else if b.2.1 / b.2.2 < a.2.1 / a.2.2 then true
  else if a.2.1 / a.2.2 = b.2.1 / b.2.2 then (sigLt a.1 b.1 || decide (a.1 = b.1))
  else false

/-- Modelled from the spec: `util.sort_prob_tuples` (not under src/) sorts the
probability tuples into the descending-likelihood-ratio order of §4.4. -/
def sort_prob_tuples (l : List (Sig × ℚ × ℚ)) : List (Sig × ℚ × ℚ) :=
  List.insertionSort (fun a b => opBefore a b = true) l

/-- Embedding of `ordered_probabilities` (lines 74–90): the set union
`list(set(mp.keys()) | set(up.keys()))` is modelled as the deduplicated
concatenation of the two key lists (a deterministic enumeration of the union),
each signature is annotated with `mp.get(sim, 0)` and `up.get(sim, 0)`, and
the result is sorted by `sort_prob_tuples`. -/
def ordered_probabilities (mp up : List (Sig × ℚ)) : List (Sig × ℚ × ℚ) :=
  sort_prob_tuples
    (((mp.map Prod.fst ++ up.map Prod.fst).dedup).map
      (fun sim => (sim, ((dget mp sim).getD 0 : ℚ), ((dget up sim).getD 0 : ℚ))))

/-- Default for `List.getD` when indexing the ranked list
(never reached at in-bounds indices). -/
def opd : Sig × ℚ × ℚ := ([], 0, 0)

/-- Mutable state of the `put_labels` loop: the two clamped accumulators
`u`, `m` and the label dict. -/
structure PLState where
  u : ℚ
  m : ℚ
  labels : List (Sig × Label)

/-- First half of the loop body of `put_labels` (lines 111–116): the sweep
from the tail `ordered_probs[-i-1]`, accumulating the tuple's match-mass
(component `[1]`) against `lambda_`; on success the signature is labelled
"unmatch" unless already "match"; on failure `m` is clamped to `lambda_`. -/
def tailStep (ops : List (Sig × ℚ × ℚ)) (lambda_ : ℚ) (st : PLState) (i : ℕ) : PLState :=
  if st.m + (ops.getD (ops.length - 1 - i) opd).2.1 ≤ lambda_ then
    { st with
      m := st.m + (ops.getD (ops.length - 1 - i) opd).2.1
      labels :=
        if dget st.labels (ops.getD (ops.length - 1 - i) opd).1 ≠ some Label.lmatch then
          dset st.labels (ops.getD (ops.length - 1 - i) opd).1 Label.lunmatch
        else st.labels }
  else
    { st with m := lambda_ }

/-- Second half of the loop body of `put_labels` (lines 117–122): the sweep
from the head `ordered_probs[i]`, accumulating the tuple's unmatch-mass
(component `[2]`) against `mu`; on success the signature is labelled "match"
(overwriting anything); on failure `u` is clamped to `mu` and the signature is
set to its current label, defaulting to "possible match". -/
def headStep (ops : List (Sig × ℚ × ℚ)) (mu : ℚ) (st : PLState) (i : ℕ) : PLState :=
  if st.u + (ops.getD i opd).2.2 ≤ mu then
    { st with
      u := st.u + (ops.getD i opd).2.2
      labels := dset st.labels (ops.getD i opd).1 Label.lmatch }
  else
    { st with
      u := mu
      labels :=
        dset st.labels (ops.getD i opd).1
          ((dget st.labels (ops.getD i opd).1).getD Label.lpossible) }

/-- State after the first `k` iterations of the `put_labels` loop
(each iteration runs the tail step, then the head step, at index `k`). -/
def plState (ops : List (Sig × ℚ × ℚ)) (mu lambda_ : ℚ) : ℕ → PLState
  | 0 => ⟨0, 0, []⟩
  | k + 1 => headStep ops mu (tailStep ops lambda_ (plState ops mu lambda_ k) k) k

/-- Embedding of `put_labels` (lines 93–123). -/
def put_labels (ops : List (Sig × ℚ × ℚ)) (mu lambda_ : ℚ) : List (Sig × Label) :=
  (plState ops mu lambda_ ops.length).labels

/-- The driver's per-pair lookup `label_dict.get(sig, 'possible match')`
(line 49). -/
def pair_label (label_dict : List (Sig × Label)) (s : Sig) : Label :=
  (dget label_dict s).getD Label.lpossible

/-- Modelled from the spec: the tail half of the Label Assignor loop exactly as
the words of §4.5 describe it — "sweep from the unmatch end: accumulate
unmatch-mass" (component `[2]`) against `lambda_`.  This is the converse of
the masses the code uses; it exists only to compare that sentence with
`put_labels`. -/
def tailStepS (ops : List (Sig × ℚ × ℚ)) (lambda_ : ℚ) (st : PLState) (i : ℕ) : PLState :=
  if st.m + (ops.getD (ops.length - 1 - i) opd).2.2 ≤ lambda_ then
    { st with
      m := st.m + (ops.getD (ops.length - 1 - i) opd).2.2
      labels :=
        if dget st.labels (ops.getD (ops.length - 1 - i) opd).1 ≠ some Label.lmatch then
          dset st.labels (ops.getD (ops.length - 1 - i) opd).1 Label.lunmatch
        else st.labels }
  else
    { st with m := lambda_ }

/-- Modelled from the spec: the head half of the Label Assignor loop as §4.5
words it — "sweep from the match end: accumulate match-mass" (component `[1]`)
against `mu`. -/
def headStepS (ops : List (Sig × ℚ × ℚ)) (mu : ℚ) (st : PLState) (i : ℕ) : PLState :=
  if st.u + (ops.getD i opd).2.1 ≤ mu then
    { st with
      u := st.u + (ops.getD i opd).2.1
      labels := dset st.labels (ops.getD i opd).1 Label.lmatch }
  else
    { st with
      u := mu
      labels :=
        dset st.labels (ops.getD i opd).1
          ((dget st.labels (ops.getD i opd).1).getD Label.lpossible) }

/-- Modelled from the spec: loop state of the spec-literal Label Assignor. -/
def plStateS (ops : List (Sig × ℚ × ℚ)) (mu lambda_ : ℚ) : ℕ → PLState
  | 0 => ⟨0, 0, []⟩
  | k + 1 => headStepS ops mu (tailStepS ops lambda_ (plStateS ops mu lambda_ k) k) k

/-- Modelled from the spec: the Label Assignor with the sweeps accumulating the
masses named by the spec's sentences (unmatch-mass against `lambda_`,
match-mass against `mu`). -/
def put_labels_specSweeps (ops : List (Sig × ℚ × ℚ)) (mu lambda_ : ℚ) : List (Sig × Label) :=
  (plStateS ops mu lambda_ ops.length).labels

/-- Clamped running total of the head sweep of `put_labels` after `i`
iterations: the value of the accumulator `u` (unmatch-mass, clamped at `mu`
once the bound is exceeded). -/
def headU (ops : List (Sig × ℚ × ℚ)) (mu : ℚ) : ℕ → ℚ
  | 0 => 0
  | i + 1 =>
    if headU ops mu i + (ops.getD i opd).2.2 ≤ mu then headU ops mu i + (ops.getD i opd).2.2
    else mu

/-- Clamped running total of the tail sweep of `put_labels` after `i`
iterations: the value of the accumulator `m` (match-mass, clamped at
`lambda_`). -/
def tailM (ops : List (Sig × ℚ × ℚ)) (lambda_ : ℚ) : ℕ → ℚ
  | 0 => 0
  | i + 1 =>
    if tailM ops lambda_ i + (ops.getD (ops.length - 1 - i) opd).2.1 ≤ lambda_ then
      tailM ops lambda_ i + (ops.getD (ops.length - 1 - i) opd).2.1
    else lambda_

/-- The label the loop of `put_labels` finally leaves on the element at
position `j` of the ranked list (for lists with pairwise distinct
signatures): "match" when the head sweep admits position `j` within `mu`,
otherwise "unmatch" when the tail sweep admits it within `lambda_` (the tail
sweep reaches position `j` at iteration `length - 1 - j`), otherwise
"possible match". -/
def labelAt (ops : List (Sig × ℚ × ℚ)) (mu lambda_ : ℚ) (j : ℕ) : Label :=
  if headU ops mu j + (ops.getD j opd).2.2 ≤ mu then Label.lmatch
  else if tailM ops lambda_ (ops.length - 1 - j) + (ops.getD j opd).2.1 ≤ lambda_ then
    Label.lunmatch
  else Label.lpossible

/-- Label of the element at position `j` after the first `k` iterations of the
`put_labels` loop (`none` = not yet in the dict). -/
def stageLabel (ops : List (Sig × ℚ × ℚ)) (mu lambda_ : ℚ) (k j : ℕ) : Option Label :=
  if j < k ∧ headU ops mu j + (ops.getD j opd).2.2 ≤ mu then some Label.lmatch
  else if ops.length - 1 - j < k ∧
      tailM ops lambda_ (ops.length - 1 - j) + (ops.getD j opd).2.1 ≤ lambda_ then
    some Label.lunmatch
  else if j < k then some Label.lpossible
  else none

/-- Number of ranked-list positions whose signature ends up labelled "match". -/
def matchCount (ops : List (Sig × ℚ × ℚ)) (mu lambda_ : ℚ) : ℕ :=
  (List.range ops.length).countP
    (fun j => decide (dget (put_labels ops mu lambda_) ((ops.getD j opd).1) = some Label.lmatch))

/-- Number of ranked-list positions whose signature ends up labelled
"unmatch". -/
def unmatchCount (ops : List (Sig × ℚ × ℚ)) (mu lambda_ : ℚ) : ℕ :=
  (List.range ops.length).countP
    (fun j => decide (dget (put_labels ops mu lambda_) ((ops.getD j opd).1) = some Label.lunmatch))

theorem dget_dset_self {α β : Type} [DecidableEq α] (d : List (α × β)) (k : α) (v : β) :
    dget (dset d k v) k = some v := by
  induction d with
  | nil => simp [dget, dset]
  | cons p d ih =>
    by_cases h : p.1 = k
    · simp [dget, dset, h]
    · simp [dget, dset, h, ih]

theorem dget_dset_ne {α β : Type} [DecidableEq α] (d : List (α × β)) {k kx : α} (v : β)
    (h : k ≠ kx) : dget (dset d k v) kx = dget d kx := by
  induction d with
  | nil => simp [dget, dset, h]
  | cons p d ih =>
    by_cases hp : p.1 = k
    · simp [dget, dset, hp, h]
    · simp [dget, dset, hp, ih]

theorem getD_mem {l : List (Sig × ℚ × ℚ)} {i : ℕ} (h : i < l.length) : l.getD i opd ∈ l := by
  rw [List.getD_eq_getElem l opd h]
  exact List.getElem_mem h

theorem key_mem (ops : List (Sig × ℚ × ℚ)) {i : ℕ} (h : i < ops.length) :
    (ops.getD i opd).1 ∈ ops.map Prod.fst :=
  List.mem_map_of_mem Prod.fst (getD_mem h)

theorem key_inj {ops : List (Sig × ℚ × ℚ)} (hnd : (ops.map Prod.fst).Nodup) {i j : ℕ}
    (hi : i < ops.length) (hj : j < ops.length)
    (h : (ops.getD i opd).1 = (ops.getD j opd).1) : i = j := by
  have hi2 : i < (ops.map Prod.fst).length := by simpa using hi
  have hj2 : j < (ops.map Prod.fst).length := by simpa using hj
  have hmap : (ops.map Prod.fst)[i] = (ops.map Prod.fst)[j] := by
    rw [List.getElem_map, List.getElem_map]
    rw [List.getD_eq_getElem ops opd hi, List.getD_eq_getElem ops opd hj] at h
    exact h
  exact (List.Nodup.getElem_inj_iff hnd).mp hmap

theorem tailStep_u (ops : List (Sig × ℚ × ℚ)) (lambda_ : ℚ) (st : PLState) (i : ℕ) :
    (tailStep ops lambda_ st i).u = st.u := by
  unfold tailStep
  split <;> rfl

theorem headStep_m (ops : List (Sig × ℚ × ℚ)) (mu : ℚ) (st : PLState) (i : ℕ) :
    (headStep ops mu st i).m = st.m := by
  unfold headStep
  split <;> rfl

theorem headStep_u (ops : List (Sig × ℚ × ℚ)) (mu : ℚ) (st : PLState) (i : ℕ) :
    (headStep ops mu st i).u =
      if st.u + (ops.getD i opd).2.2 ≤ mu then st.u + (ops.getD i opd).2.2 else mu := by
  unfold headStep
  split <;> simp_all

theorem tailStep_m (ops : List (Sig × ℚ × ℚ)) (lambda_ : ℚ) (st : PLState) (i : ℕ) :
    (tailStep ops lambda_ st i).m =
      if st.m + (ops.getD (ops.length - 1 - i) opd).2.1 ≤ lambda_ then
        st.m + (ops.getD (ops.length - 1 - i) opd).2.1
      else lambda_ := by
  unfold tailStep
  split <;> simp_all

theorem plState_u (ops : List (Sig × ℚ × ℚ)) (mu lambda_ : ℚ) (k : ℕ) :
    (plState ops mu lambda_ k).u = headU ops mu k := by
  induction k with
  | zero => rfl
  | succ k ih =>
    show (headStep ops mu (tailStep ops lambda_ (plState ops mu lambda_ k) k) k).u = _
    rw [headStep_u, tailStep_u, ih]
    rfl

theorem plState_m (ops : List (Sig × ℚ × ℚ)) (mu lambda_ : ℚ) (k : ℕ) :
    (plState ops mu lambda_ k).m = tailM ops lambda_ k := by
  induction k with
  | zero => rfl
  | succ k ih =>
    show (headStep ops mu (tailStep ops lambda_ (plState ops mu lambda_ k) k) k).m = _
    rw [headStep_m, tailStep_m, ih]
    rfl

theorem tailStep_labels_pos (ops : List (Sig × ℚ × ℚ)) (lambda_ : ℚ) (st : PLState) (i : ℕ)
    (h : st.m + (ops.getD (ops.length - 1 - i) opd).2.1 ≤ lambda_) :
    (tailStep ops lambda_ st i).labels =
      if dget st.labels (ops.getD (ops.length - 1 - i) opd).1 ≠ some Label.lmatch then
        dset st.labels (ops.getD (ops.length - 1 - i) opd).1 Label.lunmatch
      else st.labels := by
  unfold tailStep
  rw [if_pos h]

theorem tailStep_labels_neg (ops : List (Sig × ℚ × ℚ)) (lambda_ : ℚ) (st : PLState) (i : ℕ)
    (h : ¬(st.m + (ops.getD (ops.length - 1 - i) opd).2.1 ≤ lambda_)) :
    (tailStep ops lambda_ st i).labels = st.labels := by
  unfold tailStep
  rw [if_neg h]

theorem headStep_labels_pos (ops : List (Sig × ℚ × ℚ)) (mu : ℚ) (st : PLState) (i : ℕ)
    (h : st.u + (ops.getD i opd).2.2 ≤ mu) :
    (headStep ops mu st i).labels = dset st.labels (ops.getD i opd).1 Label.lmatch := by
  unfold headStep
  rw [if_pos h]

theorem headStep_labels_neg (ops : List (Sig × ℚ × ℚ)) (mu : ℚ) (st : PLState) (i : ℕ)
    (h : ¬(st.u + (ops.getD i opd).2.2 ≤ mu)) :
    (headStep ops mu st i).labels =
      dset st.labels (ops.getD i opd).1
        ((dget st.labels (ops.getD i opd).1).getD Label.lpossible) := by
  unfold headStep
  rw [if_neg h]

theorem dget_tailStep_other (ops : List (Sig × ℚ × ℚ)) (lambda_ : ℚ) (st : PLState) (k : ℕ)
    {s : Sig} (hs : s ≠ (ops.getD (ops.length - 1 - k) opd).1) :
    dget (tailStep ops lambda_ st k).labels s = dget st.labels s := by
  by_cases h : st.m + (ops.getD (ops.length - 1 - k) opd).2.1 ≤ lambda_
  · rw [tailStep_labels_pos ops lambda_ st k h]
    by_cases h2 : dget st.labels (ops.getD (ops.length - 1 - k) opd).1 ≠ some Label.lmatch
    · rw [if_pos h2]
      exact dget_dset_ne _ _ (Ne.symm hs)
    · rw [if_neg h2]
  · rw [tailStep_labels_neg ops lambda_ st k h]

theorem dget_headStep_other (ops : List (Sig × ℚ × ℚ)) (mu : ℚ) (st : PLState) (k : ℕ)
    {s : Sig} (hs : s ≠ (ops.getD k opd).1) :
    dget (headStep ops mu st k).labels s = dget st.labels s := by
  by_cases h : st.u + (ops.getD k opd).2.2 ≤ mu
  · rw [headStep_labels_pos ops mu st k h]
    exact dget_dset_ne _ _ (Ne.symm hs)
  · rw [headStep_labels_neg ops mu st k h]
    exact dget_dset_ne _ _ (Ne.symm hs)

theorem plState_succ (ops : List (Sig × ℚ × ℚ)) (mu lambda_ : ℚ) (k : ℕ) :
    plState ops mu lambda_ (k + 1) =
      headStep ops mu (tailStep ops lambda_ (plState ops mu lambda_ k) k) k := rfl

theorem stageLabel_first_pos {ops : List (Sig × ℚ × ℚ)} {mu lambda_ : ℚ} {k j : ℕ}
    (h1 : j < k) (h2 : headU ops mu j + (ops.getD j opd).2.2 ≤ mu) :
    stageLabel ops mu lambda_ k j = some Label.lmatch := by
  unfold stageLabel
  rw [if_pos ⟨h1, h2⟩]

theorem stageLabel_eq_lmatch {ops : List (Sig × ℚ × ℚ)} {mu lambda_ : ℚ} {k j : ℕ}
    (h : stageLabel ops mu lambda_ k j = some Label.lmatch) :
    j < k ∧ headU ops mu j + (ops.getD j opd).2.2 ≤ mu := by
  by_cases h1 : j < k ∧ headU ops mu j + (ops.getD j opd).2.2 ≤ mu
  · exact h1
  · exfalso
    unfold stageLabel at h
    rw [if_neg h1] at h
    split_ifs at h <;> simp_all

theorem stageLabel_succ_other (ops : List (Sig × ℚ × ℚ)) (mu lambda_ : ℚ) (k j : ℕ)
    (hjk : j ≠ k) (hjt : ops.length - 1 - j ≠ k) :
    stageLabel ops mu lambda_ (k + 1) j = stageLabel ops mu lambda_ k j := by
  unfold stageLabel
  have e1 : (j < k + 1) ↔ (j < k) := by omega
  have e2 : (ops.length - 1 - j < k + 1) ↔ (ops.length - 1 - j < k) := by omega
  simp only [e1, e2]

theorem plState_labels (ops : List (Sig × ℚ × ℚ)) (mu lambda_ : ℚ)
    (hnd : (ops.map Prod.fst).Nodup) :
    ∀ k, k ≤ ops.length →
      (∀ s, s ∉ ops.map Prod.fst → dget (plState ops mu lambda_ k).labels s = none) ∧
      (∀ j, j < ops.length →
        dget (plState ops mu lambda_ k).labels ((ops.getD j opd).1) =
          stageLabel ops mu lambda_ k j) := by
  intro k
  induction k with
  | zero =>
    intro _
    constructor
    · intro s _
      rfl
    · intro j _
      simp [plState, dget, stageLabel]
  | succ k ih =>
    intro hk1
    have hklt : k < ops.length := hk1
    obtain ⟨ihout, ihin⟩ := ih (Nat.le_of_succ_le hk1)
    have htlt : ops.length - 1 - k < ops.length := by omega
    have hm : (plState ops mu lambda_ k).m = tailM ops lambda_ k := plState_m ops mu lambda_ k
    have hu1 : (tailStep ops lambda_ (plState ops mu lambda_ k) k).u = headU ops mu k := by
      rw [tailStep_u]
      exact plState_u ops mu lambda_ k
    constructor
    · intro s hs
      rw [plState_succ]
      rw [dget_headStep_other ops mu _ k (by
        intro h
        apply hs
        rw [h]
        exact key_mem ops hklt)]
      rw [dget_tailStep_other ops lambda_ _ k (by
        intro h
        apply hs
        rw [h]
        exact key_mem ops htlt)]
      exact ihout s hs
    · intro j hj
      rw [plState_succ]
      by_cases hjk : j = k
      · subst hjk
        by_cases hmid : ops.length - 1 - j = j
        · -- middle element: the tail and the head process position j in this iteration
          have hold : dget (plState ops mu lambda_ j).labels ((ops.getD j opd).1) = none := by
            rw [ihin j hj]
            unfold stageLabel
            rw [if_neg (by omega : ¬(j < j ∧ headU ops mu j + (ops.getD j opd).2.2 ≤ mu))]
            rw [if_neg (by
              rw [hmid]
              omega : ¬(ops.length - 1 - j < j ∧
                tailM ops lambda_ (ops.length - 1 - j) + (ops.getD j opd).2.1 ≤ lambda_))]
            rw [if_neg (by omega : ¬(j < j))]
          by_cases htp : tailM ops lambda_ j + (ops.getD (ops.length - 1 - j) opd).2.1 ≤ lambda_
          · have hlab1 : (tailStep ops lambda_ (plState ops mu lambda_ j) j).labels =
                dset (plState ops mu lambda_ j).labels
                  (ops.getD (ops.length - 1 - j) opd).1 Label.lunmatch := by
              rw [tailStep_labels_pos ops lambda_ _ j (by rw [hm]; exact htp)]
              rw [if_pos (by rw [hmid, hold]; simp)]
            by_cases hh : headU ops mu j + (ops.getD j opd).2.2 ≤ mu
            · rw [headStep_labels_pos ops mu _ j (by rw [hu1]; exact hh), dget_dset_self]
              rw [stageLabel_first_pos (by omega) hh]
            · have htp2 := htp
              rw [hmid] at htp2
              rw [headStep_labels_neg ops mu _ j (by rw [hu1]; exact hh), dget_dset_self]
              rw [hlab1, hmid, dget_dset_self]
              unfold stageLabel
              rw [if_neg (by
                intro hc
                exact hh hc.2)]
              rw [if_pos (by
                refine ⟨by omega, ?_⟩
                rw [hmid]
                exact htp2)]
              rfl
          · have hlab1 : (tailStep ops lambda_ (plState ops mu lambda_ j) j).labels =
                (plState ops mu lambda_ j).labels := by
              rw [tailStep_labels_neg ops lambda_ _ j (by rw [hm]; exact htp)]
            by_cases hh : headU ops mu j + (ops.getD j opd).2.2 ≤ mu
            · rw [headStep_labels_pos ops mu _ j (by rw [hu1]; exact hh), dget_dset_self]
              rw [stageLabel_first_pos (by omega) hh]
            · have htp2 : ¬(tailM ops lambda_ j + (ops.getD j opd).2.1 ≤ lambda_) := by
                intro h
                apply htp
                rw [hmid]
                exact h
              rw [headStep_labels_neg ops mu _ j (by rw [hu1]; exact hh), dget_dset_self]
              rw [hlab1, hold]
              unfold stageLabel
              rw [if_neg (by
                intro hc
                exact hh hc.2)]
              rw [if_neg (by
                intro hc
                have hc2 := hc.2
                rw [hmid] at hc2
                exact htp2 hc2)]
              rw [if_pos (by omega : j < j + 1)]
              rfl
        · -- j = k, but the tail processes a different element
          have hne : (ops.getD j opd).1 ≠ (ops.getD (ops.length - 1 - j) opd).1 := by
            intro h
            exact hmid (key_inj hnd htlt hj h.symm)
          have hpre : dget (tailStep ops lambda_ (plState ops mu lambda_ j) j).labels
              ((ops.getD j opd).1) = stageLabel ops mu lambda_ j j := by
            rw [dget_tailStep_other ops lambda_ _ j hne]
            exact ihin j hj
          by_cases hh : headU ops mu j + (ops.getD j opd).2.2 ≤ mu
          · rw [headStep_labels_pos ops mu _ j (by rw [hu1]; exact hh), dget_dset_self]
            rw [stageLabel_first_pos (by omega) hh]
          · rw [headStep_labels_neg ops mu _ j (by rw [hu1]; exact hh), dget_dset_self]
            rw [hpre]
            by_cases hc2 : ops.length - 1 - j < j ∧
                tailM ops lambda_ (ops.length - 1 - j) + (ops.getD j opd).2.1 ≤ lambda_
            · have hv : stageLabel ops mu lambda_ j j = some Label.lunmatch := by
                unfold stageLabel
                rw [if_neg (by omega : ¬(j < j ∧ headU ops mu j + (ops.getD j opd).2.2 ≤ mu))]
                rw [if_pos hc2]
              rw [hv]
              unfold stageLabel
              rw [if_neg (by
                intro hc
                exact hh hc.2)]
              rw [if_pos ⟨by omega, hc2.2⟩]
              rfl
            · have hv : stageLabel ops mu lambda_ j j = none := by
                unfold stageLabel
                rw [if_neg (by omega : ¬(j < j ∧ headU ops mu j + (ops.getD j opd).2.2 ≤ mu))]
                rw [if_neg hc2]
                rw [if_neg (by omega : ¬(j < j))]
              rw [hv]
              unfold stageLabel
              rw [if_neg (by
                intro hc
                exact hh hc.2)]
              rw [if_neg (by
                intro hc
                exact hc2 ⟨by omega, hc.2⟩)]
              rw [if_pos (by omega : j < j + 1)]
              rfl
      · -- j ≠ k: the head step does not touch position j's key
        have hnek : (ops.getD j opd).1 ≠ (ops.getD k opd).1 := by
          intro h
          exact hjk (key_inj hnd hj hklt h)
        rw [dget_headStep_other ops mu _ k hnek]
        by_cases hjt : j = ops.length - 1 - k
        · -- the tail sweep processes position j in this iteration
          have hback : ops.length - 1 - j = k := by omega
          by_cases htp : tailM ops lambda_ k + (ops.getD (ops.length - 1 - k) opd).2.1 ≤ lambda_
          · have hcond : tailM ops lambda_ k + (ops.getD j opd).2.1 ≤ lambda_ := by
              rw [hjt]
              exact htp
            rw [tailStep_labels_pos ops lambda_ _ k (by rw [hm]; exact htp)]
            rw [← hjt]
            by_cases hml : dget (plState ops mu lambda_ k).labels
                ((ops.getD j opd).1) = some Label.lmatch
            · rw [if_neg (by
                intro hne
                exact hne hml)]
              rw [ihin j hj] at hml
              rw [ihin j hj, hml]
              have hfst := stageLabel_eq_lmatch hml
              rw [stageLabel_first_pos (by omega) hfst.2]
            · rw [if_pos hml, dget_dset_self]
              have hnm : ¬(j < k + 1 ∧ headU ops mu j + (ops.getD j opd).2.2 ≤ mu) := by
                intro hc
                apply hml
                rw [ihin j hj]
                exact stageLabel_first_pos (by omega) hc.2
              unfold stageLabel
              rw [if_neg hnm]
              rw [if_pos (by
                rw [hback]
                exact ⟨by omega, hcond⟩)]
          · rw [tailStep_labels_neg ops lambda_ _ k (by rw [hm]; exact htp)]
            rw [ihin j hj]
            have htp2 : ¬(tailM ops lambda_ k + (ops.getD j opd).2.1 ≤ lambda_) := by
              intro h
              apply htp
              rw [← hjt]
              exact h
            unfold stageLabel
            rw [hback]
            have e1 : (j < k + 1) ↔ (j < k) := by omega
            simp only [e1]
            have hX2 : ¬(k < k ∧ tailM ops lambda_ k + (ops.getD j opd).2.1 ≤ lambda_) :=
              fun hc => htp2 hc.2
            have hX3 : ¬(k < k + 1 ∧ tailM ops lambda_ k + (ops.getD j opd).2.1 ≤ lambda_) :=
              fun hc => htp2 hc.2
            rw [if_neg hX2, if_neg hX3]
        · -- neither sweep touches position j in this iteration
          have hnet : (ops.getD j opd).1 ≠ (ops.getD (ops.length - 1 - k) opd).1 := by
            intro h
            exact hjt (key_inj hnd hj htlt h)
          rw [dget_tailStep_other ops lambda_ _ k hnet, ihin j hj]
          exact (stageLabel_succ_other ops mu lambda_ k j hjk (by omega)).symm

theorem put_labels_char (ops : List (Sig × ℚ × ℚ)) (mu lambda_ : ℚ)
    (hnd : (ops.map Prod.fst).Nodup) (j : ℕ) (hj : j < ops.length) :
    dget (put_labels ops mu lambda_) ((ops.getD j opd).1) =
      some (labelAt ops mu lambda_ j) := by
  unfold put_labels
  rw [(plState_labels ops mu lambda_ hnd ops.length le_rfl).2 j hj]
  unfold stageLabel labelAt
  have h2 : ops.length - 1 - j < ops.length := by omega
  by_cases hH : headU ops mu j + (ops.getD j opd).2.2 ≤ mu
  · rw [if_pos ⟨hj, hH⟩, if_pos hH]
  · rw [if_neg (fun hc => hH hc.2), if_neg hH]
    by_cases hT : tailM ops lambda_ (ops.length - 1 - j) + (ops.getD j opd).2.1 ≤ lambda_
    · rw [if_pos ⟨h2, hT⟩, if_pos hT]
    · rw [if_neg (fun hc => hT hc.2), if_neg hT, if_pos hj]

theorem labelAt_eq_lmatch_iff (ops : List (Sig × ℚ × ℚ)) (mu lambda_ : ℚ) (j : ℕ) :
    labelAt ops mu lambda_ j = Label.lmatch ↔
      headU ops mu j + (ops.getD j opd).2.2 ≤ mu := by
  unfold labelAt
  by_cases hH : headU ops mu j + (ops.getD j opd).2.2 ≤ mu
  · rw [if_pos hH]
    exact iff_of_true rfl hH
  · rw [if_neg hH]
    by_cases hT : tailM ops lambda_ (ops.length - 1 - j) + (ops.getD j opd).2.1 ≤ lambda_
    · rw [if_pos hT]
      exact iff_of_false (by simp) hH
    · rw [if_neg hT]
      exact iff_of_false (by simp) hH

theorem labelAt_eq_lunmatch_iff (ops : List (Sig × ℚ × ℚ)) (mu lambda_ : ℚ) (j : ℕ) :
    labelAt ops mu lambda_ j = Label.lunmatch ↔
      (¬(headU ops mu j + (ops.getD j opd).2.2 ≤ mu) ∧
        tailM ops lambda_ (ops.length - 1 - j) + (ops.getD j opd).2.1 ≤ lambda_) := by
  unfold labelAt
  by_cases hH : headU ops mu j + (ops.getD j opd).2.2 ≤ mu
  · rw [if_pos hH]
    exact iff_of_false (by simp) (fun hc => hc.1 hH)
  · rw [if_neg hH]
    by_cases hT : tailM ops lambda_ (ops.length - 1 - j) + (ops.getD j opd).2.1 ≤ lambda_
    · rw [if_pos hT]
      exact iff_of_true rfl ⟨hH, hT⟩
    · rw [if_neg hT]
      exact iff_of_false (by simp) (fun hc => hT hc.2)

theorem labelAt_eq_lpossible_iff (ops : List (Sig × ℚ × ℚ)) (mu lambda_ : ℚ) (j : ℕ) :
    labelAt ops mu lambda_ j = Label.lpossible ↔
      (¬(headU ops mu j + (ops.getD j opd).2.2 ≤ mu) ∧
        ¬(tailM ops lambda_ (ops.length - 1 - j) + (ops.getD j opd).2.1 ≤ lambda_)) := by
  unfold labelAt
  by_cases hH : headU ops mu j + (ops.getD j opd).2.2 ≤ mu
  · rw [if_pos hH]
    exact iff_of_false (by simp) (fun hc => hc.1 hH)
  · rw [if_neg hH]
    by_cases hT : tailM ops lambda_ (ops.length - 1 - j) + (ops.getD j opd).2.1 ≤ lambda_
    · rw [if_pos hT]
      exact iff_of_false (by simp) (fun hc => hc.2 hT)
    · rw [if_neg hT]
      exact iff_of_true rfl ⟨hH, hT⟩

theorem headU_mono (ops : List (Sig × ℚ × ℚ)) {mu1 mu2 : ℚ} (h : mu1 ≤ mu2) (k : ℕ) :
    headU ops mu1 k ≤ headU ops mu2 k ∧
      headU ops mu2 k ≤ headU ops mu1 k + (mu2 - mu1) := by
  induction k with
  | zero =>
    unfold headU
    constructor <;> linarith
  | succ k ih =>
    obtain ⟨ih1, ih2⟩ := ih
    unfold headU
    by_cases h1 : headU ops mu1 k + (ops.getD k opd).2.2 ≤ mu1
    · rw [if_pos h1, if_pos (by linarith)]
      constructor <;> linarith
    · rw [if_neg h1]
      by_cases h2 : headU ops mu2 k + (ops.getD k opd).2.2 ≤ mu2
      · rw [if_pos h2]
        constructor <;> linarith
      · rw [if_neg h2]
        constructor <;> linarith

theorem tailM_mono (ops : List (Sig × ℚ × ℚ)) {l1 l2 : ℚ} (h : l1 ≤ l2) (k : ℕ) :
    tailM ops l1 k ≤ tailM ops l2 k ∧
      tailM ops l2 k ≤ tailM ops l1 k + (l2 - l1) := by
  induction k with
  | zero =>
    unfold tailM
    constructor <;> linarith
  | succ k ih =>
    obtain ⟨ih1, ih2⟩ := ih
    unfold tailM
    by_cases h1 : tailM ops l1 k + (ops.getD (ops.length - 1 - k) opd).2.1 ≤ l1
    · rw [if_pos h1, if_pos (by linarith)]
      constructor <;> linarith
    · rw [if_neg h1]
      by_cases h2 : tailM ops l2 k + (ops.getD (ops.length - 1 - k) opd).2.1 ≤ l2
      · rw [if_pos h2]
        constructor <;> linarith
      · rw [if_neg h2]
        constructor <;> linarith

theorem headOk_mono (ops : List (Sig × ℚ × ℚ)) {mu1 mu2 w : ℚ} (h : mu1 ≤ mu2) (j : ℕ)
    (hOk : headU ops mu1 j + w ≤ mu1) : headU ops mu2 j + w ≤ mu2 := by
  have h2 := (headU_mono ops h j).2
  linarith

theorem tailOk_mono (ops : List (Sig × ℚ × ℚ)) {l1 l2 w : ℚ} (h : l1 ≤ l2) (j : ℕ)
    (hOk : tailM ops l1 j + w ≤ l1) : tailM ops l2 j + w ≤ l2 := by
  have h2 := (tailM_mono ops h j).2
  linarith

theorem put_labels_zero_aux (ops : List (Sig × ℚ × ℚ))
    (hpos : ∀ t ∈ ops, 0 < t.2.1 ∧ 0 < t.2.2) :
    ∀ k, k ≤ ops.length →
      (plState ops 0 0 k).u = 0 ∧ (plState ops 0 0 k).m = 0 ∧
      ∀ s, dget (plState ops 0 0 k).labels s = none ∨
        dget (plState ops 0 0 k).labels s = some Label.lpossible := by
  intro k
  induction k with
  | zero => exact fun _ => ⟨rfl, rfl, fun s => Or.inl rfl⟩
  | succ k ih =>
    intro hk1
    obtain ⟨ihu, ihm, ihl⟩ := ih (Nat.le_of_succ_le hk1)
    have hklt : k < ops.length := hk1
    have htlt : ops.length - 1 - k < ops.length := by omega
    have hwt : 0 < (ops.getD (ops.length - 1 - k) opd).2.1 := (hpos _ (getD_mem htlt)).1
    have hwu : 0 < (ops.getD k opd).2.2 := (hpos _ (getD_mem hklt)).2
    have htc : ¬((plState ops 0 0 k).m + (ops.getD (ops.length - 1 - k) opd).2.1 ≤ 0) := by
      rw [ihm]
      linarith
    have hhc : ¬((tailStep ops 0 (plState ops 0 0 k) k).u + (ops.getD k opd).2.2 ≤ 0) := by
      rw [tailStep_u, ihu]
      linarith
    rw [plState_succ]
    refine ⟨?_, ?_, ?_⟩
    · rw [headStep_u, if_neg hhc]
    · rw [headStep_m, tailStep_m, if_neg htc]
    · intro s
      rw [headStep_labels_neg ops 0 _ k hhc]
      by_cases hsk : s = (ops.getD k opd).1
      · right
        rw [hsk, dget_dset_self]
        rw [tailStep_labels_neg ops 0 _ k htc]
        rcases ihl ((ops.getD k opd).1) with h | h <;> rw [h] <;> rfl
      · rw [dget_dset_ne _ _ (fun h => hsk h.symm)]
        rw [tailStep_labels_neg ops 0 _ k htc]
        exact ihl s

/-- C1 (corrected claim): in `put_labels` the sweep from the unmatch end (the
tail of the ranked list) accumulates the MATCH-mass of each tuple (component
`[1]`) and labels "unmatch" while the clamped cumulative sum stays within
`lambda_`, and the sweep from the match end (the head) accumulates the
UNMATCH-mass (component `[2]`) and labels "match" while the clamped cumulative
sum stays within `mu` — i.e. the two masses are the converse of the ones the
claim names.  For every ranked list with pairwise distinct signatures and all
`mu`, `lambda_`: position `j` ends up "match" iff the head sweep admits it,
and "unmatch" iff the head sweep rejects it while the tail sweep (which
reaches position `j` at iteration `length - 1 - j`) admits it. -/
theorem put_labels_sweep_masses (ops : List (Sig × ℚ × ℚ)) (mu lambda_ : ℚ)
    (hnd : (ops.map Prod.fst).Nodup) (j : ℕ) (hj : j < ops.length) :
    (dget (put_labels ops mu lambda_) ((ops.getD j opd).1) = some Label.lmatch ↔
      headU ops mu j + (ops.getD j opd).2.2 ≤ mu) ∧
    (dget (put_labels ops mu lambda_) ((ops.getD j opd).1) = some Label.lunmatch ↔
      (¬(headU ops mu j + (ops.getD j opd).2.2 ≤ mu) ∧
        tailM ops lambda_ (ops.length - 1 - j) + (ops.getD j opd).2.1 ≤ lambda_)) := by
  rw [put_labels_char ops mu lambda_ hnd j hj]
  constructor
  · rw [Option.some_inj]
    exact labelAt_eq_lmatch_iff ops mu lambda_ j
  · rw [Option.some_inj]
    exact labelAt_eq_lunmatch_iff ops mu lambda_ j

/-- C1 counterexample: on the ranked list [((high), 1, 0), ((low), 0, 1)] with
mu = lambda_ = 1/2, the code labels the head signature "match" (its cumulative
sum is the tuple's UNMATCH-mass 0 ≤ mu), while the sweeps exactly as the claim
words them (match-mass against mu, unmatch-mass against lambda_) would label
it "unmatch". -/
theorem put_labels_vs_specSweeps_cex :
    dget (put_labels [([Cat.high], 1, 0), ([Cat.low], 0, 1)] (1/2) (1/2)) [Cat.high] =
      some Label.lmatch ∧
    dget (put_labels_specSweeps [([Cat.high], 1, 0), ([Cat.low], 0, 1)] (1/2) (1/2))
      [Cat.high] = some Label.lunmatch := by
  constructor <;>
    norm_num [put_labels, put_labels_specSweeps, plState, plStateS, headStep, tailStep,
      headStepS, tailStepS, dget, dset, opd] <;>
    exact fun h => absurd h (by decide)

/-- Witness for C1: the theorem applied to the concrete ranked list of the
counterexample at position 0. -/
theorem put_labels_sweep_masses_witness :
    dget (put_labels [([Cat.high], 1, 0), ([Cat.low], 0, 1)] (1/2) (1/2)) [Cat.high] =
      some Label.lmatch := by
  have h := (put_labels_sweep_masses [([Cat.high], 1, 0), ([Cat.low], 0, 1)] (1/2) (1/2)
    (by decide) 0 (by decide)).1
  simp only [List.getD_cons_zero] at h
  exact h.mpr (by norm_num [headU, opd])

/-- C3 counterexample: with mu = 0 and lambda_ = 0 the label mapping is not
empty — a ranked tuple whose unmatch-mass is 0 is still labelled "match"
(0 + 0 ≤ 0), so the corresponding cross-product pairs are output "match"
rather than "possible match". -/
theorem put_labels_zero_nonempty_cex :
    put_labels [([Cat.high], 1, 0)] 0 0 = [([Cat.high], Label.lmatch)] ∧
    pair_label (put_labels [([Cat.high], 1, 0)] 0 0) [Cat.high] = Label.lmatch := by
  constructor <;>
    norm_num [put_labels, pair_label, plState, headStep, tailStep, dget, dset, opd]

/-- C3 (corrected claim): when mu = 0 and lambda_ = 0 and every tuple of the
(non-empty) ranked list has strictly positive match-mass and strictly positive
unmatch-mass, no signature is labelled "match" or "unmatch" (each listed
signature maps to "possible match"), so every cross-product pair is output
"possible match"; the mapping itself need not be empty. -/
theorem put_labels_zero_possible (ops : List (Sig × ℚ × ℚ)) (_hne : ops ≠ [])
    (hpos : ∀ t ∈ ops, 0 < t.2.1 ∧ 0 < t.2.2) (s : Sig) :
    pair_label (put_labels ops 0 0) s = Label.lpossible := by
  unfold pair_label put_labels
  rcases (put_labels_zero_aux ops hpos ops.length le_rfl).2.2 s with h | h <;> rw [h] <;> rfl

/-- Witness for C3: the theorem applied to a concrete one-element ranked list
with positive masses. -/
theorem put_labels_zero_possible_witness :
    pair_label (put_labels [([Cat.high], 1/2, 1/2)] 0 0) [Cat.low] = Label.lpossible :=
  put_labels_zero_possible [([Cat.high], 1/2, 1/2)] (by simp)
    (by
      intro t ht
      simp only [List.mem_singleton] at ht
      subst ht
      norm_num) [Cat.low]

/-- C4 (confirmed): no signature is labelled both "match" and "unmatch";
whenever both sweeps admit a position (head within mu and tail within
lambda_), the final label is "match"; and "possible match" occurs only when
both sweeps reject the position. -/
theorem put_labels_precedence (ops : List (Sig × ℚ × ℚ)) (mu lambda_ : ℚ)
    (hnd : (ops.map Prod.fst).Nodup) (j : ℕ) (hj : j < ops.length) :
    ¬(dget (put_labels ops mu lambda_) ((ops.getD j opd).1) = some Label.lmatch ∧
      dget (put_labels ops mu lambda_) ((ops.getD j opd).1) = some Label.lunmatch) ∧
    ((headU ops mu j + (ops.getD j opd).2.2 ≤ mu ∧
      tailM ops lambda_ (ops.length - 1 - j) + (ops.getD j opd).2.1 ≤ lambda_) →
      dget (put_labels ops mu lambda_) ((ops.getD j opd).1) = some Label.lmatch) ∧
    (dget (put_labels ops mu lambda_) ((ops.getD j opd).1) = some Label.lpossible →
      ¬(headU ops mu j + (ops.getD j opd).2.2 ≤ mu) ∧
      ¬(tailM ops lambda_ (ops.length - 1 - j) + (ops.getD j opd).2.1 ≤ lambda_)) := by
  rw [put_labels_char ops mu lambda_ hnd j hj]
  refine ⟨?_, ?_, ?_⟩
  · intro hc
    exact absurd (hc.1.symm.trans hc.2) (by simp)
  · intro hc
    rw [Option.some_inj]
    exact (labelAt_eq_lmatch_iff ops mu lambda_ j).mpr hc.1
  · intro hc
    rw [Option.some_inj] at hc
    exact (labelAt_eq_lpossible_iff ops mu lambda_ j).mp hc

/-- Witness for C4: the theorem applied to a concrete two-element ranked
list. -/
theorem put_labels_precedence_witness :
    dget (put_labels [([Cat.high], 1, 0), ([Cat.low], 0, 1)] 1 1) [Cat.high] =
      some Label.lmatch := by
  have h := (put_labels_precedence [([Cat.high], 1, 0), ([Cat.low], 0, 1)] 1 1
    (by decide) 0 (by decide)).2.1
  simp only [List.getD_cons_zero] at h
  exact h (by norm_num [headU, tailM, opd])

/-- C5 (confirmed): with the signatures pairwise distinct, raising mu (lambda_
fixed) never decreases the number of positions labelled "match", and raising
lambda_ (mu fixed) never decreases the number labelled "unmatch". -/
theorem put_labels_monotone (ops : List (Sig × ℚ × ℚ))
    (mu1 mu2 lambda1 lambda2 mu lambda_ : ℚ) (hnd : (ops.map Prod.fst).Nodup) :
    (mu1 ≤ mu2 → matchCount ops mu1 lambda_ ≤ matchCount ops mu2 lambda_) ∧
    (lambda1 ≤ lambda2 → unmatchCount ops mu lambda1 ≤ unmatchCount ops mu lambda2) := by
  constructor
  · intro h
    unfold matchCount
    apply List.countP_mono_left
    intro j hjr
    have hj : j < ops.length := List.mem_range.mp hjr
    simp only [decide_eq_true_eq]
    rw [put_labels_char ops mu1 lambda_ hnd j hj, put_labels_char ops mu2 lambda_ hnd j hj]
    rw [Option.some_inj, Option.some_inj]
    rw [labelAt_eq_lmatch_iff, labelAt_eq_lmatch_iff]
    exact headOk_mono ops h j
  · intro h
    unfold unmatchCount
    apply List.countP_mono_left
    intro j hjr
    have hj : j < ops.length := List.mem_range.mp hjr
    simp only [decide_eq_true_eq]
    rw [put_labels_char ops mu lambda1 hnd j hj, put_labels_char ops mu lambda2 hnd j hj]
    rw [Option.some_inj, Option.some_inj]
    rw [labelAt_eq_lunmatch_iff, labelAt_eq_lunmatch_iff]
    intro hc
    exact ⟨hc.1, tailOk_mono ops h _ hc.2⟩

/-- Witness for C5: the theorem applied at a concrete ranked list with
mu going from 1/4 to 1/2 and lambda_ from 0 to 1. -/
theorem put_labels_monotone_witness :
    matchCount [([Cat.high], 1, 0), ([Cat.low], 0, 1)] (1/4) 0 ≤
      matchCount [([Cat.high], 1, 0), ([Cat.low], 0, 1)] (1/2) 0 ∧
    unmatchCount [([Cat.high], 1, 0), ([Cat.low], 0, 1)] (1/4) 0 ≤
      unmatchCount [([Cat.high], 1, 0), ([Cat.low], 0, 1)] (1/4) 1 := by
  constructor
  · exact (put_labels_monotone [([Cat.high], 1, 0), ([Cat.low], 0, 1)]
      (1/4) (1/2) 0 1 (1/4) 0 (by decide)).1 (by norm_num)
  · exact (put_labels_monotone [([Cat.high], 1, 0), ([Cat.low], 0, 1)]
      (1/4) (1/2) 0 1 (1/4) 0 (by decide)).2 (by norm_num)

theorem dincr_cons_eq (p : Sig × ℚ) (d : List (Sig × ℚ)) (k : Sig) (w : ℚ) (h : p.1 = k) :
    dincr (p :: d) k w = (k, p.2 + w) :: d := by
  unfold dincr
  simp [dget, dset, h]

theorem dincr_cons_ne (p : Sig × ℚ) (d : List (Sig × ℚ)) (k : Sig) (w : ℚ) (h : ¬(p.1 = k)) :
    dincr (p :: d) k w = p :: dincr d k w := by
  unfold dincr
  simp [dget, dset, h]

theorem dincr_sum (d : List (Sig × ℚ)) (k : Sig) (w : ℚ) :
    ((dincr d k w).map (fun p => p.2)).sum = ((d.map (fun p => p.2)).sum) + w := by
  induction d with
  | nil => simp [dincr, dget, dset]
  | cons p d ih =>
    by_cases h : p.1 = k
    · rw [dincr_cons_eq p d k w h]
      simp
      ring
    · rw [dincr_cons_ne p d k w h]
      simp only [List.map_cons, List.sum_cons, ih]
      ring

theorem cpLoop_sum (cat : String → String → Cat) (zagat fodors : List (ℕ × List String))
    (w : ℚ) : ∀ (df : List (ℕ × ℕ)) (acc probs : List (Sig × ℚ)),
    cpLoop cat zagat fodors w df acc = Except.ok probs →
    (probs.map (fun p => p.2)).sum = (acc.map (fun p => p.2)).sum + df.length * w := by
  intro df
  induction df with
  | nil =>
    intro acc probs h
    unfold cpLoop at h
    injection h with h
    subst h
    simp
  | cons r rest ih =>
    intro acc probs h
    unfold cpLoop at h
    cases hg : gen_prob_tuple cat r.1 r.2 zagat fodors with
    | error e =>
      rw [hg] at h
      exact absurd h (by simp)
    | ok tpl =>
      rw [hg] at h
      have h2 := ih (dincr acc tpl w) probs h
      rw [h2, dincr_sum]
      simp only [List.length_cons]
      push_cast
      ring

/-- C6 (confirmed): whenever `compute_probabilities` returns a distribution
for a non-empty training set, its masses sum to exactly 1, hence to 1 within
the 1e-9 tolerance. -/
theorem compute_probabilities_sum_one (cat : String → String → Cat) (df : List (ℕ × ℕ))
    (zagat fodors : List (ℕ × List String)) (probs : List (Sig × ℚ)) (hne : df ≠ [])
    (hok : compute_probabilities cat df zagat fodors = Except.ok probs) :
    |(probs.map (fun p => p.2)).sum - 1| ≤ 1 / 1000000000 := by
  have h := cpLoop_sum cat zagat fodors (1 / (df.length : ℚ)) df [] probs hok
  have hlen : (df.length : ℚ) ≠ 0 := by
    have h0 : df.length ≠ 0 := fun hc => hne (List.length_eq_zero.mp hc)
    exact_mod_cast h0
  rw [h, mul_one_div, div_self hlen]
  norm_num

/-- Witness for C6: the theorem applied to a one-pair training set. -/
theorem compute_probabilities_sum_one_witness :
    |(([([Cat.low], (1:ℚ))]).map (fun p => p.2)).sum - 1| ≤ 1 / 1000000000 :=
  compute_probabilities_sum_one (fun _ _ => Cat.low) [(0, 0)] [(0, ["a"])] [(0, ["b"])]
    [([Cat.low], 1)] (by simp)
    (by norm_num [compute_probabilities, cpLoop, gen_prob_tuple, gptLoop, dincr, dget, dset])

theorem mem_dset {α β : Type} [DecidableEq α] (d : List (α × β)) (k : α) (v : β) {p : α × β}
    (h : p ∈ dset d k v) : p ∈ d ∨ p = (k, v) := by
  induction d with
  | nil =>
    simp only [dset, List.mem_singleton] at h
    exact Or.inr h
  | cons q d ih =>
    simp only [dset] at h
    by_cases hq : q.1 = k
    · rw [if_pos hq] at h
      rcases List.mem_cons.mp h with h1 | h1
      · exact Or.inr h1
      · exact Or.inl (List.mem_cons_of_mem q h1)
    · rw [if_neg hq] at h
      rcases List.mem_cons.mp h with h1 | h1
      · exact Or.inl (List.mem_cons.mpr (Or.inl h1))
      · rcases ih h1 with h2 | h2
        · exact Or.inl (List.mem_cons_of_mem q h2)
        · exact Or.inr h2

theorem dget_mem {α β : Type} [DecidableEq α] {d : List (α × β)} {k : α} {v : β}
    (h : dget d k = some v) : (k, v) ∈ d := by
  induction d with
  | nil => simp [dget] at h
  | cons p d ih =>
    simp only [dget] at h
    by_cases hp : p.1 = k
    · rw [if_pos hp] at h
      injection h with h
      have hpkv : p = (k, v) := by
        rcases p with ⟨p1, p2⟩
        simp only at hp h
        rw [hp, h]
      rw [← hpkv]
      exact List.mem_cons_self p d
    · rw [if_neg hp] at h
      exact List.mem_cons_of_mem p (ih h)

theorem dget_some_of_mem_keys {α β : Type} [DecidableEq α] {d : List (α × β)} {s : α}
    (h : s ∈ d.map Prod.fst) : ∃ v, dget d s = some v := by
  induction d with
  | nil => simp at h
  | cons p d ih =>
    by_cases hp : p.1 = s
    · exact ⟨p.2, by simp [dget, hp]⟩
    · simp only [List.map_cons, List.mem_cons] at h
      rcases h with h | h
      · exact absurd h.symm hp
      · obtain ⟨v, hv⟩ := ih h
        exact ⟨v, by simp [dget, hp, hv]⟩

theorem cpLoop_lb (cat : String → String → Cat) (zagat fodors : List (ℕ × List String))
    (w : ℚ) (hw : 0 ≤ w) : ∀ (df : List (ℕ × ℕ)) (acc probs : List (Sig × ℚ)),
    (∀ p ∈ acc, w ≤ p.2) → cpLoop cat zagat fodors w df acc = Except.ok probs →
    ∀ p ∈ probs, w ≤ p.2 := by
  intro df
  induction df with
  | nil =>
    intro acc probs hacc h
    unfold cpLoop at h
    injection h with h
    subst h
    exact hacc
  | cons r rest ih =>
    intro acc probs hacc h
    unfold cpLoop at h
    cases hg : gen_prob_tuple cat r.1 r.2 zagat fodors with
    | error e =>
      rw [hg] at h
      exact absurd h (by simp)
    | ok tpl =>
      rw [hg] at h
      refine ih (dincr acc tpl w) probs ?_ h
      intro p hp
      rcases mem_dset acc tpl ((dget acc tpl).getD 0 + w) hp with h1 | h1
      · exact hacc p h1
      · rw [h1]
        cases hv : dget acc tpl with
        | none =>
          simp only [Option.getD_none]
          linarith
        | some v =>
          have hvw := hacc (tpl, v) (dget_mem hv)
          simp only [Option.getD_some]
          simp only at hvw
          linarith

theorem sort_prob_tuples_perm (l : List (Sig × ℚ × ℚ)) :
    List.Perm (sort_prob_tuples l) l :=
  List.perm_insertionSort _ l

/-- C10 (confirmed): every mass stored by `compute_probabilities` for a
non-empty training set is at least 1/|pairs| and in particular strictly
positive; consequently every tuple reaching the ranker via
`ordered_probabilities` of two estimator outputs has positive mass on at
least one side. -/
theorem compute_probabilities_pos (cat : String → String → Cat) (df1 df2 : List (ℕ × ℕ))
    (zagat fodors : List (ℕ × List String)) (mp up : List (Sig × ℚ))
    (h1 : df1 ≠ []) (h2 : df2 ≠ [])
    (hok1 : compute_probabilities cat df1 zagat fodors = Except.ok mp)
    (hok2 : compute_probabilities cat df2 zagat fodors = Except.ok up) :
    (∀ p ∈ mp, 1 / (df1.length : ℚ) ≤ p.2 ∧ 0 < p.2) ∧
    (∀ p ∈ up, 1 / (df2.length : ℚ) ≤ p.2 ∧ 0 < p.2) ∧
    (∀ t ∈ ordered_probabilities mp up, 0 < t.2.1 ∨ 0 < t.2.2) := by
  have hn1 : (0 : ℚ) < df1.length := by
    exact_mod_cast List.length_pos.mpr h1
  have hn2 : (0 : ℚ) < df2.length := by
    exact_mod_cast List.length_pos.mpr h2
  have hw1 : 0 < 1 / (df1.length : ℚ) := one_div_pos.mpr hn1
  have hw2 : 0 < 1 / (df2.length : ℚ) := one_div_pos.mpr hn2
  have hmp : ∀ p ∈ mp, 1 / (df1.length : ℚ) ≤ p.2 :=
    cpLoop_lb cat zagat fodors _ (le_of_lt hw1) df1 [] mp (by simp) hok1
  have hup : ∀ p ∈ up, 1 / (df2.length : ℚ) ≤ p.2 :=
    cpLoop_lb cat zagat fodors _ (le_of_lt hw2) df2 [] up (by simp) hok2
  refine ⟨fun p hp => ⟨hmp p hp, lt_of_lt_of_le hw1 (hmp p hp)⟩,
    fun p hp => ⟨hup p hp, lt_of_lt_of_le hw2 (hup p hp)⟩, ?_⟩
  intro t ht
  unfold ordered_probabilities at ht
  have ht2 := (List.Perm.mem_iff (sort_prob_tuples_perm _)).mp ht
  obtain ⟨s, hs, hts⟩ := List.mem_map.mp ht2
  rw [List.mem_dedup, List.mem_append] at hs
  rcases hs with hs | hs
  · obtain ⟨v, hv⟩ := dget_some_of_mem_keys hs
    left
    rw [← hts]
    simp only [hv, Option.getD_some]
    exact lt_of_lt_of_le hw1 (hmp (s, v) (dget_mem hv))
  · obtain ⟨v, hv⟩ := dget_some_of_mem_keys hs
    right
    rw [← hts]
    simp only [hv, Option.getD_some]
    exact lt_of_lt_of_le hw2 (hup (s, v) (dget_mem hv))

/-- Witness for C10: the theorem applied to two one-pair training sets. -/
theorem compute_probabilities_pos_witness :
    1 / ((([((0 : ℕ), (0 : ℕ))] : List (ℕ × ℕ)).length : ℚ)) ≤
      (([Cat.low], (1 : ℚ)) : Sig × ℚ).2 ∧ 0 < (([Cat.low], (1 : ℚ)) : Sig × ℚ).2 :=
  (compute_probabilities_pos (fun _ _ => Cat.low) [(0, 0)] [(0, 0)]
    [(0, ["a"])] [(0, ["b"])] [([Cat.low], 1)] [([Cat.low], 1)]
    (by simp) (by simp)
    (by norm_num [compute_probabilities, cpLoop, gen_prob_tuple, gptLoop, dincr, dget, dset])
    (by norm_num [compute_probabilities, cpLoop, gen_prob_tuple, gptLoop, dincr, dget,
      dset])).1 ([Cat.low], 1) (List.mem_singleton.mpr rfl)

/-- C2 counterexample: on an empty training set `compute_probabilities`
returns the empty distribution successfully — it does not fail with any
error (the code has no EmptyTrainingSetError; the division by len(df) sits
inside the loop body and is never executed for an empty df). -/
theorem compute_probabilities_empty_cex :
    compute_probabilities (fun _ _ => Cat.low) [] [] [] = Except.ok [] := rfl

/-- C2 (corrected claim): for every categorizer and every pair of datasets,
`compute_probabilities` on an empty set of training pairs silently returns
the empty distribution; no exception is raised and no NaN/Inf is produced
because the division is never executed. -/
theorem compute_probabilities_empty_eq_nil (cat : String → String → Cat)
    (zagat fodors : List (ℕ × List String)) :
    compute_probabilities cat [] zagat fodors = Except.ok [] := rfl

theorem gptLoop_schema (cat : String → String → Cat) :
    ∀ z f : List String,
      (f.length < z.length → gptLoop cat z f = Except.error PyErr.indexError) ∧
      (z.length ≤ f.length →
        ∃ sig, gptLoop cat z f = Except.ok sig ∧ sig.length = z.length) := by
  intro z
  induction z with
  | nil =>
    intro f
    constructor
    · intro h
      simp at h
    · intro _
      exact ⟨[], rfl, rfl⟩
  | cons a z ih =>
    intro f
    cases f with
    | nil =>
      constructor
      · intro _
        rfl
      · intro h
        simp at h
    | cons b f =>
      obtain ⟨ih1, ih2⟩ := ih f
      constructor
      · intro h
        have hlt : f.length < z.length := by
          simp only [List.length_cons] at h
          omega
        simp [gptLoop, ih1 hlt]
      · intro h
        have hle : z.length ≤ f.length := by
          simp only [List.length_cons] at h
          omega
        obtain ⟨sig, hsig, hlen⟩ := ih2 hle
        exact ⟨cat a b :: sig, by simp [gptLoop, hsig], by simp [hlen]⟩

/-- C9 counterexample: with the first record exposing 1 field and the second
2 fields, `gen_prob_tuple` silently returns a signature (of the first
record's length) instead of failing — mismatched field counts are fatal only
when the second record is the shorter one. -/
theorem gen_prob_tuple_mismatch_cex :
    gen_prob_tuple (fun _ _ => Cat.low) 0 0 [(0, ["a"])] [(0, ["b", "c"])] =
      Except.ok [Cat.low] ∧
    (["a"] : List String).length ≠ (["b", "c"] : List String).length := by
  constructor
  · rfl
  · simp

/-- C9 (corrected claim): with both record lookups succeeding,
`gen_prob_tuple` fails (with IndexError) exactly when the first record has
more comparable fields than the second; when the first record's field count
is ≤ the second's, it silently returns a signature whose length is the first
record's field count (extra fields of the second record are ignored). -/
theorem gen_prob_tuple_schema (cat : String → String → Cat) (z_i f_i : ℕ)
    (zagat fodors : List (ℕ × List String)) (z f : List String)
    (hz : dget zagat z_i = some z) (hf : dget fodors f_i = some f) :
    (f.length < z.length →
      gen_prob_tuple cat z_i f_i zagat fodors = Except.error PyErr.indexError) ∧
    (z.length ≤ f.length →
      ∃ sig, gen_prob_tuple cat z_i f_i zagat fodors = Except.ok sig ∧
        sig.length = z.length) := by
  have hgen : gen_prob_tuple cat z_i f_i zagat fodors = gptLoop cat z f := by
    unfold gen_prob_tuple
    rw [hz, hf]
  rw [hgen]
  exact gptLoop_schema cat z f

/-- Witness for C9: the theorem applied to a concrete mismatched pair in the
error direction (first record longer) and the silent direction. -/
theorem gen_prob_tuple_schema_witness :
    gen_prob_tuple (fun _ _ => Cat.low) 0 0 [(0, ["a", "x"])] [(0, ["b"])] =
      Except.error PyErr.indexError := by
  have h := (gen_prob_tuple_schema (fun _ _ => Cat.low) 0 0 [(0, ["a", "x"])] [(0, ["b"])]
    ["a", "x"] ["b"] rfl rfl).1
  exact h (by simp)

/-- Index of the first occurrence of a signature in a key list (the position
of a signature in the ranking). -/
def posOf : List Sig → Sig → ℕ
  | [], _ => 0
  | a :: l, s => if a = s then 0 else posOf l s + 1

theorem posOf_inj {l : List Sig} {s1 s2 : Sig} (h1 : s1 ∈ l) (h2 : s2 ∈ l)
    (h : posOf l s1 = posOf l s2) : s1 = s2 := by
  induction l with
  | nil => simp at h1
  | cons a l ih =>
    simp only [posOf] at h
    by_cases e1 : a = s1
    · by_cases e2 : a = s2
      · rw [← e1, ← e2]
      · rw [if_pos e1, if_neg e2] at h
        omega
    · by_cases e2 : a = s2
      · rw [if_neg e1, if_pos e2] at h
        omega
      · rw [if_neg e1, if_neg e2] at h
        have h1b : s1 ∈ l := by
          rcases List.mem_cons.mp h1 with hc | hc
          · exact absurd hc.symm e1
          · exact hc
        have h2b : s2 ∈ l := by
          rcases List.mem_cons.mp h2 with hc | hc
          · exact absurd hc.symm e2
          · exact hc
        exact ih h1b h2b (by omega)

theorem countP_key_eq_one {l : List Sig} (hnd : l.Nodup) {s : Sig} (hs : s ∈ l) :
    l.countP (fun x => decide (x = s)) = 1 := by
  induction l with
  | nil => simp at hs
  | cons b l ih =>
    have hbl := List.nodup_cons.mp hnd
    rw [List.countP_cons]
    rcases List.mem_cons.mp hs with h | h
    · have h0 : l.countP (fun x => decide (x = s)) = 0 := by
        rw [List.countP_eq_zero]
        intro x hx
        simp only [decide_eq_true_eq]
        intro hxs
        apply hbl.1
        rw [← h, ← hxs]
        exact hx
      rw [h0, h]
      simp
    · have h1 := ih hbl.2 h
      have hbs : ¬(b = s) := fun hb => hbl.1 (hb ▸ h)
      rw [h1]
      simp [hbs]

theorem ordered_probabilities_keys_perm (mp up : List (Sig × ℚ)) :
    List.Perm ((ordered_probabilities mp up).map Prod.fst)
      ((mp.map Prod.fst ++ up.map Prod.fst).dedup) := by
  unfold ordered_probabilities
  have h := (sort_prob_tuples_perm (((mp.map Prod.fst ++ up.map Prod.fst).dedup).map
    (fun sim => (sim, ((dget mp sim).getD 0 : ℚ), ((dget up sim).getD 0 : ℚ))))).map Prod.fst
  rw [List.map_map] at h
  have he : (Prod.fst ∘ fun sim : Sig =>
      (sim, ((dget mp sim).getD 0 : ℚ), ((dget up sim).getD 0 : ℚ))) =
      (fun sim : Sig => sim) := rfl
  rw [he, List.map_id'] at h
  exact h

theorem ordered_probabilities_mem (mp up : List (Sig × ℚ)) (s : Sig) :
    s ∈ (ordered_probabilities mp up).map Prod.fst ↔
      (s ∈ mp.map Prod.fst ∨ s ∈ up.map Prod.fst) := by
  rw [(ordered_probabilities_keys_perm mp up).mem_iff, List.mem_dedup, List.mem_append]

/-- C8 (confirmed; the sort itself is modelled from the spec — membership and
masses are invariant under any permutation it produces): the ranked list has
exactly one entry per signature of the union of the two distributions' key
sets, and each entry carries `mp.get(s, 0)` and `up.get(s, 0)` as its
match-mass and unmatch-mass. -/
theorem ordered_probabilities_union (mp up : List (Sig × ℚ)) :
    (∀ s : Sig, s ∈ (ordered_probabilities mp up).map Prod.fst ↔
      (s ∈ mp.map Prod.fst ∨ s ∈ up.map Prod.fst)) ∧
    (∀ s : Sig, (s ∈ mp.map Prod.fst ∨ s ∈ up.map Prod.fst) →
      ((ordered_probabilities mp up).map Prod.fst).countP (fun x => decide (x = s)) = 1) ∧
    (∀ t ∈ ordered_probabilities mp up,
      t.2.1 = (dget mp t.1).getD 0 ∧ t.2.2 = (dget up t.1).getD 0) := by
  have hnd := (ordered_probabilities_keys_perm mp up).nodup_iff.mpr (List.nodup_dedup _)
  refine ⟨ordered_probabilities_mem mp up, ?_, ?_⟩
  · intro s hs
    exact countP_key_eq_one hnd ((ordered_probabilities_mem mp up s).mpr hs)
  · intro t ht
    unfold ordered_probabilities at ht
    have ht2 := (List.Perm.mem_iff (sort_prob_tuples_perm _)).mp ht
    obtain ⟨s, _, hts⟩ := List.mem_map.mp ht2
    subst hts
    exact ⟨rfl, rfl⟩

/-- Witness for C8: the exactly-one-entry clause at a concrete pair of
singleton distributions. -/
theorem ordered_probabilities_union_witness :
    ((ordered_probabilities [([Cat.high], 1)] [([Cat.low], 1)]).map Prod.fst).countP
      (fun x => decide (x = [Cat.high])) = 1 :=
  (ordered_probabilities_union [([Cat.high], 1)] [([Cat.low], 1)]).2.1 [Cat.high]
    (Or.inl (by simp))

/-- C7 (confirmed; the sort is modelled from the spec): the signatures of the
ranked list are pairwise distinct, so ranking position is a total order on
them — for two distinct signatures of the result exactly one precedes the
other — and the ranking is a pure function of its two inputs (repeated calls
agree). -/
theorem ordered_probabilities_total_order (mp up : List (Sig × ℚ)) :
    ((ordered_probabilities mp up).map Prod.fst).Nodup ∧
    (∀ s1 s2 : Sig, s1 ∈ (ordered_probabilities mp up).map Prod.fst →
      s2 ∈ (ordered_probabilities mp up).map Prod.fst → s1 ≠ s2 →
      (posOf ((ordered_probabilities mp up).map Prod.fst) s1 <
          posOf ((ordered_probabilities mp up).map Prod.fst) s2 ↔
        ¬(posOf ((ordered_probabilities mp up).map Prod.fst) s2 <
            posOf ((ordered_probabilities mp up).map Prod.fst) s1))) ∧
    ordered_probabilities mp up = ordered_probabilities mp up := by
  refine ⟨(ordered_probabilities_keys_perm mp up).nodup_iff.mpr (List.nodup_dedup _),
    ?_, rfl⟩
  intro s1 s2 h1 h2 hne
  have hij : posOf ((ordered_probabilities mp up).map Prod.fst) s1 ≠
      posOf ((ordered_probabilities mp up).map Prod.fst) s2 :=
    fun h => hne (posOf_inj h1 h2 h)
  omega

/-- Witness for C7: the exactly-one-order clause at two concrete distinct
signatures of a concrete ranking. -/
theorem ordered_probabilities_total_order_witness :
    posOf ((ordered_probabilities [([Cat.high], 1)] [([Cat.low], 1)]).map Prod.fst)
        [Cat.high] <
      posOf ((ordered_probabilities [([Cat.high], 1)] [([Cat.low], 1)]).map Prod.fst)
        [Cat.low] ↔
    ¬(posOf ((ordered_probabilities [([Cat.high], 1)] [([Cat.low], 1)]).map Prod.fst)
        [Cat.low] <
      posOf ((ordered_probabilities [([Cat.high], 1)] [([Cat.low], 1)]).map Prod.fst)
        [Cat.high]) :=
  (ordered_probabilities_total_order [([Cat.high], 1)] [([Cat.low], 1)]).2.1
    [Cat.high] [Cat.low]
    ((ordered_probabilities_mem [([Cat.high], 1)] [([Cat.low], 1)] [Cat.high]).mpr
      (Or.inl (by simp)))
    ((ordered_probabilities_mem [([Cat.high], 1)] [([Cat.low], 1)] [Cat.low]).mpr
      (Or.inr (by simp)))
    (by decide)
